import Mathlib

/-!
Verification of the EcommerceBankFraudML data-preparation pipeline.

The definitions below are shallow embeddings of the Python source under
`src/scripts/`: machine integers become `Nat`/`Int`, pandas columns become
Lean lists, `pd.merge_asof(..., direction='backward')` on sorted inputs
becomes "last entry whose `lower_bound` does not exceed the key" on an
insertion-sorted list, and fallible code returns `Option`/`Except`.
-/

namespace FraudML

/-- One row of the `IpAddress_to_Country` reference table:
`lower_bound_ip_address`, `upper_bound_ip_address` (both cast to int by the
source) and the country payload column. -/
structure Interval where
  lower : Nat
  upper : Nat
  payload : String
deriving DecidableEq, Repr

/-- `sort_values('lower_bound_ip_address')` ordering used by both join
implementations before `pd.merge_asof`. -/
def lowerLe (a b : Interval) : Prop := a.lower ≤ b.lower

instance : DecidableRel lowerLe := fun a b => Nat.decLe a.lower b.lower

instance : IsTotal Interval lowerLe := ⟨fun a b => Nat.le_total a.lower b.lower⟩

instance : IsTrans Interval lowerLe := ⟨fun _ _ _ h1 h2 => Nat.le_trans h1 h2⟩

/-- `ip_data.sort_values('lower_bound_ip_address')` (pandas uses a stable
sort; insertion sort is stable). -/
def sortByLower (ivs : List Interval) : List Interval :=
  List.insertionSort lowerLe ivs

/-- `pd.merge_asof(..., left_on='ip_int', right_on='lower_bound_ip_address',
direction='backward')` picks, for a key, the last row of the sorted right
table whose `lower_bound_ip_address` does not exceed the key (or no row). -/
def lastLE (k : Nat) : List Interval → Option Interval
  | [] => none
  | iv :: rest =>
    match lastLE k rest with
    | some c => some c
    | none => if iv.lower ≤ k then some iv else none

/-- The per-key effect of `GeolocationAnalyzer.merge_fraud_with_geolocation`:
the asof candidate followed by the filter
`lower_bound_ip_address <= ip_int <= upper_bound_ip_address`
(geolocation_analysis.py lines 72-84). -/
def lookup (ivs : List Interval) (k : Nat) : Option String :=
  match lastLE k (sortByLower ivs) with
  | none => none
  | some c => if c.lower ≤ k ∧ k ≤ c.upper then some c.payload else none

/-- Two reference intervals do not overlap. -/
def IntervalsDisjoint (a b : Interval) : Prop :=
  a.upper < b.lower ∨ b.upper < a.lower

instance : DecidableRel IntervalsDisjoint := fun _ _ =>
  inferInstanceAs (Decidable (_ ∨ _))

/-- A valid reference set: every interval has `lower <= upper` and the
intervals are pairwise non-overlapping. -/
def ValidRef (ivs : List Interval) : Prop :=
  (∀ iv ∈ ivs, iv.lower ≤ iv.upper) ∧ List.Pairwise IntervalsDisjoint ivs

instance (ivs : List Interval) : Decidable (ValidRef ivs) :=
  inferInstanceAs (Decidable (_ ∧ _))

theorem lastLE_mem_le {k : Nat} :
    ∀ {l : List Interval} {c : Interval}, lastLE k l = some c → c ∈ l ∧ c.lower ≤ k := by
  intro l
  induction l with
  | nil => intro c h; simp [lastLE] at h
  | cons a t ih =>
    intro c h
    unfold lastLE at h
    cases ht : lastLE k t with
    | some c' =>
      rw [ht] at h
      obtain ⟨hm, hle⟩ := ih ht
      cases h
      exact ⟨List.mem_cons_of_mem _ hm, hle⟩
    | none =>
      rw [ht] at h
      by_cases hak : a.lower ≤ k
      · simp [hak] at h
        subst h
        exact ⟨List.mem_cons_self _ _, hak⟩
      · simp [hak] at h

theorem lastLE_none {k : Nat} :
    ∀ {l : List Interval}, lastLE k l = none → ∀ j ∈ l, k < j.lower := by
  intro l
  induction l with
  | nil => intro _ j hj; cases hj
  | cons a t ih =>
    intro h j hj
    unfold lastLE at h
    cases ht : lastLE k t with
    | some c' => rw [ht] at h; cases h
    | none =>
      rw [ht] at h
      by_cases hak : a.lower ≤ k
      · simp [hak] at h
      · rcases List.mem_cons.mp hj with rfl | hjt
        · omega
        · exact ih ht j hjt

theorem lastLE_max {k : Nat} :
    ∀ {l : List Interval}, l.Sorted lowerLe →
      ∀ {c}, lastLE k l = some c → ∀ j ∈ l, j.lower ≤ k → j.lower ≤ c.lower := by
  intro l
  induction l with
  | nil => intro _ c h; simp [lastLE] at h
  | cons a t ih =>
    intro hs c h j hj hjk
    have hst : t.Sorted lowerLe := hs.of_cons
    have hat : ∀ b ∈ t, lowerLe a b := List.rel_of_sorted_cons hs
    unfold lastLE at h
    cases ht : lastLE k t with
    | some c' =>
      rw [ht] at h
      cases h
      rcases List.mem_cons.mp hj with rfl | hjt
      · exact hat c (lastLE_mem_le ht).1
      · exact ih hst ht j hjt hjk
    | none =>
      rw [ht] at h
      by_cases hak : a.lower ≤ k
      · simp [hak] at h
        subst h
        rcases List.mem_cons.mp hj with rfl | hjt
        · exact Nat.le_refl _
        · exact absurd hjk (Nat.not_le_of_lt (lastLE_none ht j hjt))
      · simp [hak] at h

theorem mem_sortByLower {ivs : List Interval} {iv : Interval} :
    iv ∈ sortByLower ivs ↔ iv ∈ ivs :=
  List.mem_insertionSort lowerLe

theorem sorted_sortByLower (ivs : List Interval) :
    (sortByLower ivs).Sorted lowerLe :=
  List.sorted_insertionSort lowerLe ivs

theorem validRef_disjoint {ivs : List Interval} (hval : ValidRef ivs)
    {iv jv : Interval} (hiv : iv ∈ ivs) (hjv : jv ∈ ivs) (hne : iv ≠ jv) :
    IntervalsDisjoint iv jv := by
  have hsymm : Symmetric IntervalsDisjoint := fun a b hab => hab.symm
  exact hval.2.forall hsymm hiv hjv hne

/-- In a valid reference set, at most one interval contains a key. -/
theorem contains_unique {ivs : List Interval} (hval : ValidRef ivs)
    {iv jv : Interval} {k : Nat} (hiv : iv ∈ ivs) (hjv : jv ∈ ivs)
    (h1 : iv.lower ≤ k) (h2 : k ≤ iv.upper)
    (h3 : jv.lower ≤ k) (h4 : k ≤ jv.upper) : jv = iv := by
  by_contra hne
  rcases validRef_disjoint hval hjv hiv hne with h | h <;> omega

/-- For a valid reference set, the asof candidate of a contained key is
exactly the containing interval. -/
theorem lastLE_eq_of_contains {ivs : List Interval} (hval : ValidRef ivs)
    {iv : Interval} {k : Nat} (hiv : iv ∈ ivs)
    (h1 : iv.lower ≤ k) (h2 : k ≤ iv.upper) :
    lastLE k (sortByLower ivs) = some iv := by
  cases h : lastLE k (sortByLower ivs) with
  | none =>
    have := lastLE_none h iv (mem_sortByLower.mpr hiv)
    omega
  | some c =>
    obtain ⟨hcs, hck⟩ := lastLE_mem_le h
    have hc : c ∈ ivs := mem_sortByLower.mp hcs
    have hmax : iv.lower ≤ c.lower :=
      lastLE_max (sorted_sortByLower ivs) h iv (mem_sortByLower.mpr hiv) h1
    by_cases hne : c = iv
    · rw [hne]
    · have hcub : c.lower ≤ c.upper := hval.1 c hc
      rcases validRef_disjoint hval hc hiv hne with hd | hd <;> omega

theorem lookup_eq_of_contains {ivs : List Interval} (hval : ValidRef ivs)
    {iv : Interval} {k : Nat} (hiv : iv ∈ ivs)
    (h1 : iv.lower ≤ k) (h2 : k ≤ iv.upper) :
    lookup ivs k = some iv.payload := by
  unfold lookup
  rw [lastLE_eq_of_contains hval hiv h1 h2]
  simp [h1, h2]

theorem lookup_eq_none {ivs : List Interval} {k : Nat}
    (h : ∀ iv ∈ ivs, ¬(iv.lower ≤ k ∧ k ≤ iv.upper)) :
    lookup ivs k = none := by
  unfold lookup
  cases hl : lastLE k (sortByLower ivs) with
  | none => rfl
  | some c =>
    obtain ⟨hcs, _⟩ := lastLE_mem_le hl
    have := h c (mem_sortByLower.mp hcs)
    simp only [ite_eq_right_iff]
    intro hc
    exact absurd hc this

/-- C1: for every valid (non-overlapping, `lower <= upper`) reference set and
every key `k`, the range-join lookup returns the payload of the unique
interval with `lower <= k <= upper` (both boundaries inclusive), and returns
no match when no interval contains `k`. -/
theorem c1_range_join_lookup (ivs : List Interval) (k : Nat) (hval : ValidRef ivs) :
    (∀ iv ∈ ivs, iv.lower ≤ k → k ≤ iv.upper →
       lookup ivs k = some iv.payload
       ∧ ∀ jv ∈ ivs, jv.lower ≤ k → k ≤ jv.upper → jv = iv)
    ∧ ((∀ iv ∈ ivs, ¬(iv.lower ≤ k ∧ k ≤ iv.upper)) → lookup ivs k = none) := by
  constructor
  · intro iv hiv h1 h2
    exact ⟨lookup_eq_of_contains hval hiv h1 h2,
      fun jv hjv h3 h4 => contains_unique hval hiv hjv h1 h2 h3 h4⟩
  · exact lookup_eq_none

/-- Witness for C1 on the spec's concrete example set
`[(0,999,"A"), (1000,1999,"B")]`, at both inclusive boundaries and at an
uncontained key. -/
theorem c1_range_join_lookup_witness :
    lookup [⟨0, 999, "A"⟩, ⟨1000, 1999, "B"⟩] 999 = some "A"
    ∧ lookup [⟨0, 999, "A"⟩, ⟨1000, 1999, "B"⟩] 1000 = some "B"
    ∧ lookup [⟨0, 999, "A"⟩, ⟨1000, 1999, "B"⟩] 2000 = none :=
  ⟨((c1_range_join_lookup [⟨0, 999, "A"⟩, ⟨1000, 1999, "B"⟩] 999 (by decide)).1
      ⟨0, 999, "A"⟩ (by decide) (by decide) (by decide)).1,
   ((c1_range_join_lookup [⟨0, 999, "A"⟩, ⟨1000, 1999, "B"⟩] 1000 (by decide)).1
      ⟨1000, 1999, "B"⟩ (by decide) (by decide) (by decide)).1,
   (c1_range_join_lookup [⟨0, 999, "A"⟩, ⟨1000, 1999, "B"⟩] 2000 (by decide)).2
      (by decide)⟩

/-- Decimal digit predicate for `strtoul`-style component parsing. -/
def isDec (c : Char) : Bool := '0' ≤ c && c ≤ '9'

/-- Octal digit predicate. -/
def isOct (c : Char) : Bool := '0' ≤ c && c ≤ '7'

/-- Hexadecimal digit predicate. -/
def isHex (c : Char) : Bool :=
  isDec c || ('a' ≤ c && c ≤ 'f') || ('A' ≤ c && c ≤ 'F')

/-- Value of a decimal or octal digit character. -/
def decVal (c : Char) : Nat := c.toNat - 48

/-- Value of a hexadecimal digit character. -/
def hexVal (c : Char) : Nat :=
  if isDec c then c.toNat - 48
  else if 'a' ≤ c && c ≤ 'f' then c.toNat - 87
  else c.toNat - 55

/-- Parse a non-empty all-valid digit string in the given base, most
significant digit first (the accumulation `strtoul` performs); any other
string is rejected, as `inet_aton` requires each component to end at a dot
or at the end of the input. -/
def parseBase (base : Nat) (valid : Char → Bool) (val : Char → Nat)
    (cs : List Char) : Option Nat :=
  match cs with
  | [] => none
  | _ :: _ =>
    if cs.all valid then some (cs.foldl (fun acc c => acc * base + val c) 0)
    else none

def parseDec (cs : List Char) : Option Nat := parseBase 10 isDec decVal cs

def parseOct (cs : List Char) : Option Nat := parseBase 8 isOct decVal cs

def parseHex (cs : List Char) : Option Nat := parseBase 16 isHex hexVal cs

/-- One `inet_aton` component: C `strtoul` base detection — a leading
`0x`/`0X` selects hexadecimal, a leading `0` selects octal, anything else is
decimal. -/
def parseComponent (cs : List Char) : Option Nat :=
  match cs with
  | [] => none
  | c :: rest =>
    if c = '0' then
      match rest with
      | [] => some 0
      | 'x' :: rest2 => parseHex rest2
      | 'X' :: rest2 => parseHex rest2
      | _ :: _ => parseOct rest
    else parseDec cs

/-- Split on `'.'` (the component separator of `inet_aton`). -/
def splitDots : List Char → List (List Char)
  | [] => [[]]
  | c :: rest =>
    if c = '.' then [] :: splitDots rest
    else
      match splitDots rest with
      | [] => [c] :: []
      | p :: ps => (c :: p) :: ps

/-- Parse every component, failing if any fails. -/
def parseAll : List (List Char) → Option (List Nat)
  | [] => some []
  | p :: ps =>
    match parseComponent p, parseAll ps with
    | some v, some vs => some (v :: vs)
    | _, _ => none

/-- The numeric scan of `inet_aton`, applied to the text before the first
whitespace character: one to four numeric components; with `n` components
the first `n - 1` must fit in a byte and the last must fit in the
remaining `5 - n` bytes; the result is the big-endian 32-bit integer. -/
def inet_atonCore (cs : List Char) : Option Nat :=
  match parseAll (splitDots cs) with
  | none => none
  | some [a] => if a < 4294967296 then some a else none
  | some [a, b] =>
    if a ≤ 255 ∧ b < 16777216 then some (a * 16777216 + b) else none
  | some [a, b, c] =>
    if a ≤ 255 ∧ b ≤ 255 ∧ c < 65536 then
      some (a * 16777216 + b * 65536 + c)
    else none
  | some [a, b, c, d] =>
    if a ≤ 255 ∧ b ≤ 255 ∧ c ≤ 255 ∧ d ≤ 255 then
      some (a * 16777216 + b * 65536 + c * 256 + d)
    else none
  | some _ => none

/-- The characters the C locale's `isspace` accepts. -/
def isSpaceCh (c : Char) : Bool :=
  c = ' ' || c = '\t' || c = '\n' || c = '\x0b' || c = '\x0c' || c = '\r'

/-- Split at the first whitespace character. `inet_aton`'s
trailing-character check passes on any whitespace and never examines the
rest of the string, so the numeric scan sees only the first component of
this split and everything from the first whitespace onward is ignored. -/
def splitAtSpace : List Char → List Char × List Char
  | [] => ([], [])
  | c :: rest =>
    if isSpaceCh c then ([], c :: rest)
    else (c :: (splitAtSpace rest).1, (splitAtSpace rest).2)

/-- `socket.inet_aton` followed by `struct.unpack("!I", ...)` (glibc
semantics): scan the text before the first whitespace as one to four
numeric components and ignore the remainder — `"1.2.3.4 x"` parses like
`"1.2.3.4"`. -/
def inet_aton (cs : List Char) : Option Nat :=
  inet_atonCore (splitAtSpace cs).1

theorem splitAtSpace_no_space {cs : List Char}
    (h : ∀ c ∈ cs, isSpaceCh c = false) : splitAtSpace cs = (cs, []) := by
  induction cs with
  | nil => rfl
  | cons c rest ih =>
    have hc := h c (List.mem_cons_self _ _)
    have hr := ih (fun x hx => h x (List.mem_cons_of_mem _ hx))
    simp [splitAtSpace, hc, hr]

theorem splitAtSpace_append {cs junk : List Char} {w : Char}
    (h : ∀ c ∈ cs, isSpaceCh c = false) (hw : isSpaceCh w = true) :
    splitAtSpace (cs ++ w :: junk) = (cs, w :: junk) := by
  induction cs with
  | nil => simp [splitAtSpace, hw]
  | cons c rest ih =>
    have hc := h c (List.mem_cons_self _ _)
    have hr := ih (fun x hx => h x (List.mem_cons_of_mem _ hx))
    simp [splitAtSpace, hc, hr]

theorem inet_aton_no_space {cs : List Char}
    (h : ∀ c ∈ cs, isSpaceCh c = false) : inet_aton cs = inet_atonCore cs := by
  unfold inet_aton
  rw [splitAtSpace_no_space h]

/-- `GeolocationAnalyzer.ip_to_int` (geolocation_analysis.py lines 16-34):
`struct.unpack("!I", socket.inet_aton(ip))[0]`, with the `socket.error`
handler returning `None` on invalid input. -/
def ip_to_int (cs : List Char) : Option Nat := inet_aton cs

/-- Decimal digit character, as produced by Python's `str` on an `int`. -/
def digitChar (d : Nat) : Char := Char.ofNat (48 + d)

/-- Little-endian base-10 digits by repeated `divmod`, with a structural
fuel argument so that the definition reduces by iota steps. -/
def toDigitsRev (fuel n : Nat) : List Nat :=
  match fuel, n with
  | 0, _ => []
  | _ + 1, 0 => []
  | f + 1, m + 1 => (m + 1) % 10 :: toDigitsRev f ((m + 1) / 10)

theorem toDigitsRev_eq_digits : ∀ fuel n, n ≤ fuel → toDigitsRev fuel n = Nat.digits 10 n := by
  intro fuel
  induction fuel with
  | zero => intro n hn; interval_cases n; simp [toDigitsRev]
  | succ f ih =>
    intro n hn
    cases n with
    | zero => simp [toDigitsRev]
    | succ m =>
      rw [toDigitsRev, Nat.digits_def' (by norm_num : (1:Nat) < 10) (Nat.succ_pos m)]
      rw [ih ((m + 1) / 10) (by
        have := Nat.div_lt_self (Nat.succ_pos m) (by norm_num : 1 < 10)
        omega)]

/-- Python's `str` applied to a non-negative `int`: the decimal digits, most
significant first, with no sign, no leading zeros, and `"0"` for zero. -/
def natToDecChars (n : Nat) : List Char :=
  if n = 0 then ['0'] else (toDigitsRev n n).reverse.map digitChar

theorem natToDecChars_eq (n : Nat) :
    natToDecChars n = if n = 0 then ['0'] else (Nat.digits 10 n).reverse.map digitChar := by
  unfold natToDecChars
  rw [toDigitsRev_eq_digits n n (Nat.le_refl n)]

/-- Python's `str` applied to an `int`, including the `'-'` sign. -/
def intToDecChars (i : Int) : List Char :=
  if i < 0 then '-' :: natToDecChars i.natAbs else natToDecChars i.natAbs

theorem digitChar_spec {d : Nat} (hd : d < 10) :
    isDec (digitChar d) = true ∧ decVal (digitChar d) = d ∧
      digitChar d ≠ '.' ∧ (d ≠ 0 → digitChar d ≠ '0') := by
  interval_cases d <;> refine ⟨by decide, by decide, by decide, ?_⟩ <;> simp <;> decide

theorem mem_digits_lt {n d : Nat} (hd : d ∈ Nat.digits 10 n) : d < 10 :=
  Nat.digits_lt_base (by norm_num) hd

theorem natToDecChars_all_isDec (n : Nat) :
    ∀ c ∈ natToDecChars n, isDec c = true := by
  intro c hc
  rw [natToDecChars_eq] at hc
  by_cases h0 : n = 0
  · simp [h0] at hc
    subst hc
    decide
  · simp [h0] at hc
    obtain ⟨d, hd, rfl⟩ := hc
    exact (digitChar_spec (mem_digits_lt hd)).1

theorem natToDecChars_no_dot (n : Nat) :
    ∀ c ∈ natToDecChars n, c ≠ '.' := by
  intro c hc
  rw [natToDecChars_eq] at hc
  by_cases h0 : n = 0
  · simp [h0] at hc
    subst hc
    decide
  · simp [h0] at hc
    obtain ⟨d, hd, rfl⟩ := hc
    exact (digitChar_spec (mem_digits_lt hd)).2.2.1

theorem digitChar_not_space {d : Nat} (hd : d < 10) :
    isSpaceCh (digitChar d) = false := by
  interval_cases d <;> decide

theorem natToDecChars_no_space (n : Nat) :
    ∀ c ∈ natToDecChars n, isSpaceCh c = false := by
  intro c hc
  rw [natToDecChars_eq] at hc
  by_cases h0 : n = 0
  · simp [h0] at hc
    subst hc
    decide
  · simp [h0] at hc
    obtain ⟨d, hd, rfl⟩ := hc
    exact digitChar_not_space (mem_digits_lt hd)

theorem natToDecChars_ne_nil (n : Nat) : natToDecChars n ≠ [] := by
  rw [natToDecChars_eq]
  by_cases h0 : n = 0
  · simp [h0]
  · simp [h0, Nat.digits_ne_nil_iff_ne_zero.mpr h0]

theorem parseBase_pos {base : Nat} {valid : Char → Bool} {val : Char → Nat}
    (c : Char) (t : List Char) (hall : (c :: t).all valid = true) :
    parseBase base valid val (c :: t)
      = some ((c :: t).foldl (fun acc ch => acc * base + val ch) 0) := by
  unfold parseBase
  simp [hall]

/-- The digit accumulation of `strtoul` inverts Python's decimal printing. -/
theorem parseDec_natToDecChars (n : Nat) :
    parseDec (natToDecChars n) = some n := by
  by_cases h0 : n = 0
  · subst h0; decide
  · obtain ⟨b, L, hbL⟩ :=
      List.exists_cons_of_ne_nil (natToDecChars_ne_nil n)
    have hall : (natToDecChars n).all isDec = true :=
      List.all_eq_true.mpr (fun c hc => natToDecChars_all_isDec n c hc)
    have hfold : (natToDecChars n).foldl (fun acc c => acc * 10 + decVal c) 0 = n := by
      rw [natToDecChars_eq]
      simp only [h0, if_false]
      rw [List.foldl_map]
      rw [List.foldl_ext (fun acc d => acc * 10 + decVal (digitChar d))
            (fun acc d => acc * 10 + d) 0
            (fun a d hd => by
              show a * 10 + decVal (digitChar d) = a * 10 + d
              rw [(digitChar_spec (mem_digits_lt (List.mem_reverse.mp hd))).2.1])]
      rw [List.foldl_reverse]
      have : List.foldr (fun d acc => acc * 10 + d) 0 (Nat.digits 10 n)
          = Nat.ofDigits 10 (Nat.digits 10 n) := by
        induction Nat.digits 10 n with
        | nil => simp [Nat.ofDigits]
        | cons d t ih =>
          simp only [List.foldr_cons, ih, Nat.ofDigits_cons]
          ring
      rw [this, Nat.ofDigits_digits]
    unfold parseDec
    rw [hbL, parseBase_pos b L (hbL ▸ hall), ← hbL, hfold]

/-- Parsing one component of a Python-printed non-negative integer
round-trips. -/
theorem parseComponent_natToDecChars (n : Nat) :
    parseComponent (natToDecChars n) = some n := by
  by_cases h0 : n = 0
  · subst h0; decide
  · have hne : Nat.digits 10 n ≠ [] := Nat.digits_ne_nil_iff_ne_zero.mpr h0
    obtain ⟨b, L, hbL⟩ :=
      List.exists_cons_of_ne_nil (natToDecChars_ne_nil n)
    have hhead : (natToDecChars n).head? = some (digitChar ((Nat.digits 10 n).getLast hne)) := by
      rw [natToDecChars_eq]
      simp only [h0, if_false]
      rw [List.head?_map, List.head?_reverse, List.getLast?_eq_getLast _ hne]
      rfl
    have hb : b = digitChar ((Nat.digits 10 n).getLast hne) := by
      rw [hbL] at hhead
      exact Option.some.inj hhead
    have hglast : (Nat.digits 10 n).getLast hne ∈ Nat.digits 10 n :=
      List.getLast_mem hne
    have hbne : b ≠ '0' := by
      rw [hb]
      exact (digitChar_spec (mem_digits_lt hglast)).2.2.2
        (Nat.getLast_digit_ne_zero 10 h0)
    rw [hbL]
    unfold parseComponent
    simp only [hbne, if_false]
    rw [← hbL]
    exact parseDec_natToDecChars n

/-- A dot-free character list is a single `splitDots` component. -/
theorem splitDots_no_dot {cs : List Char} (h : ∀ c ∈ cs, c ≠ '.') :
    splitDots cs = [cs] := by
  induction cs with
  | nil => rfl
  | cons c rest ih =>
    have hc : c ≠ '.' := h c (List.mem_cons_self _ _)
    have hrest : splitDots rest = [rest] :=
      ih (fun x hx => h x (List.mem_cons_of_mem _ hx))
    unfold splitDots
    simp [hc, hrest]

/-- `splitDots` splits off the leading dot-free component. -/
theorem splitDots_append {xs ys : List Char} (h : ∀ c ∈ xs, c ≠ '.') :
    splitDots (xs ++ '.' :: ys) = xs :: splitDots ys := by
  induction xs with
  | nil =>
    simp only [List.nil_append]
    rw [splitDots]
    simp
  | cons c rest ih =>
    have hc : c ≠ '.' := h c (List.mem_cons_self _ _)
    have hrest := ih (fun x hx => h x (List.mem_cons_of_mem _ hx))
    simp only [List.cons_append]
    rw [splitDots, hrest]
    simp [hc]

/-- `splitDots` produces one more component than there are dots. -/
theorem splitDots_length (cs : List Char) :
    (splitDots cs).length = cs.count '.' + 1 := by
  induction cs with
  | nil => rfl
  | cons c rest ih =>
    unfold splitDots
    by_cases hc : c = '.'
    · simp [hc, ih, List.count_cons]
    · cases hrest : splitDots rest with
      | nil => rw [hrest] at ih; simp at ih
      | cons p ps =>
        rw [hrest] at ih
        simp only [hc, if_false, hrest]
        simp only [List.length_cons] at ih ⊢
        rw [List.count_cons]
        simp [hc, ← ih]

theorem parseAll_none :
    ∀ {l : List (List Char)} {x : List Char},
      x ∈ l → parseComponent x = none → parseAll l = none := by
  intro l
  induction l with
  | nil => intro x hx; cases hx
  | cons a t ih =>
    intro x hx hfx
    unfold parseAll
    rcases List.mem_cons.mp hx with rfl | hxt
    · rw [hfx]
    · rw [ih hxt hfx]
      cases parseComponent a <;> rfl

theorem parseAll_length :
    ∀ {l : List (List Char)} {l' : List Nat},
      parseAll l = some l' → l'.length = l.length := by
  intro l
  induction l with
  | nil =>
    intro l' h
    unfold parseAll at h
    cases h
    rfl
  | cons a t ih =>
    intro l' h
    unfold parseAll at h
    cases hfa : parseComponent a with
    | none => rw [hfa] at h; cases h
    | some b =>
      rw [hfa] at h
      cases hmt : parseAll t with
      | none => rw [hmt] at h; cases h
      | some t' =>
        rw [hmt] at h
        cases h
        simp [ih hmt]

/-- A canonical dotted-quad string: four decimal components, each printed
by Python's `str` (so no leading zeros), joined by dots. -/
def canonQuad (a b c d : Nat) : List Char :=
  natToDecChars a ++ '.' ::
    (natToDecChars b ++ '.' :: (natToDecChars c ++ '.' :: natToDecChars d))

theorem splitDots_canonQuad (a b c d : Nat) :
    splitDots (canonQuad a b c d)
      = [natToDecChars a, natToDecChars b, natToDecChars c, natToDecChars d] := by
  unfold canonQuad
  rw [splitDots_append (natToDecChars_no_dot a),
      splitDots_append (natToDecChars_no_dot b),
      splitDots_append (natToDecChars_no_dot c),
      splitDots_no_dot (natToDecChars_no_dot d)]

theorem parseAll_canonQuad (a b c d : Nat) :
    parseAll (splitDots (canonQuad a b c d)) = some [a, b, c, d] := by
  rw [splitDots_canonQuad]
  simp [parseAll, parseComponent_natToDecChars]

theorem canonQuad_no_space (a b c d : Nat) :
    ∀ ch ∈ canonQuad a b c d, isSpaceCh ch = false := by
  intro ch hch
  unfold canonQuad at hch
  rcases List.mem_append.mp hch with h | h
  · exact natToDecChars_no_space a ch h
  · rcases List.mem_cons.mp h with rfl | h
    · decide
    · rcases List.mem_append.mp h with h | h
      · exact natToDecChars_no_space b ch h
      · rcases List.mem_cons.mp h with rfl | h
        · decide
        · rcases List.mem_append.mp h with h | h
          · exact natToDecChars_no_space c ch h
          · rcases List.mem_cons.mp h with rfl | h
            · decide
            · exact natToDecChars_no_space d ch h

theorem inet_aton_canonQuad (a b c d : Nat) :
    inet_aton (canonQuad a b c d)
      = if a ≤ 255 ∧ b ≤ 255 ∧ c ≤ 255 ∧ d ≤ 255 then
          some (a * 16777216 + b * 65536 + c * 256 + d)
        else none := by
  rw [inet_aton_no_space (canonQuad_no_space a b c d)]
  unfold inet_atonCore
  rw [parseAll_canonQuad]

/-- A component that does not start with `'0'` and contains a non-decimal
character is rejected. -/
theorem parseComponent_none {comp : List Char} (hh : comp.head? ≠ some '0')
    (hbad : ∃ ch ∈ comp, isDec ch = false) : parseComponent comp = none := by
  cases comp with
  | nil => rfl
  | cons c rest =>
    have hc : c ≠ '0' := fun h => hh (by rw [h]; rfl)
    unfold parseComponent parseDec parseBase
    obtain ⟨ch, hch, hbadch⟩ := hbad
    have hall : (c :: rest).all isDec = false := by
      rw [List.all_eq_false]
      exact ⟨ch, hch, by simp [hbadch]⟩
    simp [hc, hall]

/-- The numeric scan fails on more than four components. -/
theorem inet_atonCore_none_of_dots {cs : List Char}
    (hdots : 4 ≤ cs.count '.') : inet_atonCore cs = none := by
  cases hm : parseAll (splitDots cs) with
  | none => unfold inet_atonCore; rw [hm]
  | some vs =>
    have hlen : vs.length = (splitDots cs).length := parseAll_length hm
    rw [splitDots_length] at hlen
    have h5 : 5 ≤ vs.length := by omega
    unfold inet_atonCore
    rw [hm]
    rcases vs with _ | ⟨v1, _ | ⟨v2, _ | ⟨v3, _ | ⟨v4, _ | ⟨v5, t⟩⟩⟩⟩⟩ <;>
      simp only [List.length_nil, List.length_cons] at h5 <;> first | omega | rfl

/-- The numeric scan fails when some component that does not start with
`'0'` contains a non-decimal character. -/
theorem inet_atonCore_none_of_badComp {cs comp : List Char}
    (hmem : comp ∈ splitDots cs) (hh : comp.head? ≠ some '0')
    (hbad : ∃ ch ∈ comp, isDec ch = false) : inet_atonCore cs = none := by
  have hcomp : parseComponent comp = none := parseComponent_none hh hbad
  have hm : parseAll (splitDots cs) = none := parseAll_none hmem hcomp
  unfold inet_atonCore
  rw [hm]

/-- C2 (amended): `ip_to_int` maps every canonical dotted quad (four
decimal components with no leading zeros, each at most 255) to its 32-bit
big-endian integer; on the text before the first whitespace character it
fails on a four-part form with an out-of-range octet, on more than four
components, and on any component that is non-numeric; but, contrary to
the original claim, a wrong octet count BELOW four does not fail
(`inet_aton` also accepts one-, two- and three-component numeric forms),
and everything from the first whitespace character on is simply ignored,
so trailing whitespace or junk after a space does not fail either. -/
theorem c2_ip_to_int_parse (a b c d : Nat) (cs junk comp : List Char)
    (w : Char) :
    (a ≤ 255 → b ≤ 255 → c ≤ 255 → d ≤ 255 →
       ip_to_int (canonQuad a b c d)
         = some (a * 16777216 + b * 65536 + c * 256 + d))
    ∧ ((255 < a ∨ 255 < b ∨ 255 < c ∨ 255 < d) →
       ip_to_int (canonQuad a b c d) = none)
    ∧ (4 ≤ ((splitAtSpace cs).1).count '.' → ip_to_int cs = none)
    ∧ (comp ∈ splitDots (splitAtSpace cs).1 → comp.head? ≠ some '0' →
       (∃ ch ∈ comp, isDec ch = false) → ip_to_int cs = none)
    ∧ ((∀ ch ∈ cs, isSpaceCh ch = false) → isSpaceCh w = true →
       ip_to_int (cs ++ w :: junk) = ip_to_int cs) := by
  refine ⟨?_, ?_, ?_, ?_, ?_⟩
  · intro ha hb hc hd
    unfold ip_to_int
    rw [inet_aton_canonQuad]
    simp [ha, hb, hc, hd]
  · intro hout
    unfold ip_to_int
    rw [inet_aton_canonQuad]
    have : ¬(a ≤ 255 ∧ b ≤ 255 ∧ c ≤ 255 ∧ d ≤ 255) := by omega
    simp [this]
  · intro hdots
    unfold ip_to_int inet_aton
    exact inet_atonCore_none_of_dots hdots
  · intro hmem hh hbad
    unfold ip_to_int inet_aton
    exact inet_atonCore_none_of_badComp hmem hh hbad
  · intro hns hw
    unfold ip_to_int inet_aton
    rw [splitAtSpace_append hns hw, splitAtSpace_no_space hns]

/-- C2 counterexample: `"1.2.3"` has the wrong octet count for a dotted
quad, yet `ip_to_int` returns an integer for it (`inet_aton` three-part
shorthand) instead of failing. -/
theorem c2_ip_to_int_parse_counterexample :
    ip_to_int ("1.2.3".data) = some 16908291
    ∧ ip_to_int ("1.2.3".data) ≠ none := by
  refine ⟨by decide, by decide⟩

/-- Witness for C2 at the spec's own examples plus the
trailing-whitespace tolerance of `inet_aton`. -/
theorem c2_ip_to_int_parse_witness :
    ip_to_int (canonQuad 0 0 0 1) = some 1
    ∧ ip_to_int (canonQuad 255 255 255 255) = some 4294967295
    ∧ ip_to_int ("999.1.1.1".data) = none
    ∧ ip_to_int ("abc".data) = none
    ∧ ip_to_int ("1.2.3.4 x".data) = some 16909060
    ∧ ip_to_int ("3 ".data) = some 3 := by
  refine ⟨?_, ?_, ?_, ?_, ?_, ?_⟩
  · exact (c2_ip_to_int_parse 0 0 0 1 [] [] [] ' ').1
      (by norm_num) (by norm_num) (by norm_num) (by norm_num)
  · exact (c2_ip_to_int_parse 255 255 255 255 [] [] [] ' ').1
      (by norm_num) (by norm_num) (by norm_num) (by norm_num)
  · have h := (c2_ip_to_int_parse 999 1 1 1 [] [] [] ' ').2.1
      (Or.inl (by norm_num))
    rwa [show canonQuad 999 1 1 1 = ("999.1.1.1".data) from by decide] at h
  · exact (c2_ip_to_int_parse 0 0 0 0 ("abc".data) [] ("abc".data) ' ').2.2.2.1
      (by decide) (by decide) ⟨'a', by decide, by decide⟩
  · have hws := (c2_ip_to_int_parse 1 2 3 4 ("1.2.3.4".data) ("x".data)
      [] ' ').2.2.2.2 (by decide) (by decide)
    have hval : ip_to_int (canonQuad 1 2 3 4) = some 16909060 :=
      (c2_ip_to_int_parse 1 2 3 4 [] [] [] ' ').1
        (by norm_num) (by norm_num) (by norm_num) (by norm_num)
    rw [show ("1.2.3.4 x".data) = ("1.2.3.4".data ++ ' ' :: "x".data)
        from by decide, hws,
      show ("1.2.3.4".data) = canonQuad 1 2 3 4 from by decide, hval]
  · have hws := (c2_ip_to_int_parse 0 0 0 0 ("3".data) [] [] ' ').2.2.2.2
      (by decide) (by decide)
    have hval : ip_to_int ("3".data) = some 3 := by decide
    rw [show ("3 ".data) = ("3".data ++ ' ' :: ([] : List Char))
        from by decide, hws, hval]

/-- A value of the `ip_address` column of the fraud table: missing
(`NaN`), numeric (the dataset stores integral floats), or a string. -/
inductive Cell where
  | absent
  | num (n : Int)
  | str (s : String)
deriving DecidableEq, Repr

/-- Python `str` of an `int`, sign included. -/
theorem intToDecChars_natCast (x : Nat) :
    intToDecChars (x : Int) = natToDecChars x := by
  unfold intToDecChars
  simp

/-- Python `int(s)` on a string: optional sign followed by decimal digits,
`ValueError` (here `none`) otherwise. -/
def pyStrToInt (cs : List Char) : Option Int :=
  match cs with
  | '-' :: rest => (parseDec rest).map (fun n => -(n : Int))
  | '+' :: rest => (parseDec rest).map (fun n => (n : Int))
  | _ => (parseDec cs).map (fun n => (n : Int))

/-- The per-cell key conversion of the geolocation merge
(geolocation_analysis.py line 57):
`ip_to_int(str(int(x))) if not pd.isna(x) else None`. `Except.error` marks
a `ValueError` raised by `int(x)`, which only the outer handler of
`merge_fraud_with_geolocation` catches. -/
def cellKey : Cell → Except Unit (Option Nat)
  | Cell.absent => Except.ok none
  | Cell.num n => Except.ok (ip_to_int (intToDecChars n))
  | Cell.str s =>
    match pyStrToInt s.data with
    | some n => Except.ok (ip_to_int (intToDecChars n))
    | none => Except.error ()

theorem ip_to_int_natToDecChars (x : Nat) :
    ip_to_int (natToDecChars x) = if x < 4294967296 then some x else none := by
  unfold ip_to_int
  rw [inet_aton_no_space (natToDecChars_no_space x)]
  unfold inet_atonCore
  rw [splitDots_no_dot (natToDecChars_no_dot x)]
  simp [parseAll, parseComponent_natToDecChars x]

/-- C9: the parser also accepts bare decimal-integer strings — for every
`x` up to `2^32 - 1`, `ip_to_int (str x) = x`, and for every larger `x` it
returns `None`; the geolocation join relies on this by feeding each numeric
`ip_address` through `str(int(x))` into exactly this parse. -/
theorem c9_bare_decimal (x : Nat) :
    (x ≤ 4294967295 → ip_to_int (natToDecChars x) = some x)
    ∧ (4294967295 < x → ip_to_int (natToDecChars x) = none)
    ∧ cellKey (Cell.num (x : Int)) = Except.ok (ip_to_int (natToDecChars x)) := by
  refine ⟨?_, ?_, ?_⟩
  · intro hx
    rw [ip_to_int_natToDecChars]
    simp [Nat.lt_succ_of_le hx]
  · intro hx
    rw [ip_to_int_natToDecChars]
    have : ¬x < 4294967296 := by omega
    simp [this]
  · show Except.ok (ip_to_int (intToDecChars (x : Int))) = _
    rw [intToDecChars_natCast]

/-- Witness for C9 just below and just above the 32-bit boundary. -/
theorem c9_bare_decimal_witness :
    ip_to_int (natToDecChars 4294967295) = some 4294967295
    ∧ ip_to_int (natToDecChars 4294967296) = none :=
  ⟨(c9_bare_decimal 4294967295).1 (by norm_num),
   (c9_bare_decimal 4294967296).2.1 (by norm_num)⟩

/-- Whether `int(x)` succeeds on the cell (so the conversion lambda does
not raise). -/
def cellOk (c : Cell) : Bool :=
  match cellKey c with
  | Except.ok _ => true
  | Except.error _ => false

/-- The key a cell yields when the conversion does not raise. -/
def pureKey (c : Cell) : Option Nat :=
  match cellKey c with
  | Except.ok k => k
  | Except.error _ => none

theorem cellKey_eq_of_ok {c : Cell} (h : cellOk c = true) :
    cellKey c = Except.ok (pureKey c) := by
  unfold cellOk at h
  unfold pureKey
  cases hc : cellKey c with
  | ok k => rfl
  | error e => rw [hc] at h; cases h

/-- The `apply` of the conversion lambda over the `ip_address` column:
`Except.error` if `int(x)` raises on any cell. -/
def keyedRows : List Cell → Except Unit (List (Cell × Option Nat))
  | [] => Except.ok []
  | c :: rest =>
    match cellKey c, keyedRows rest with
    | Except.ok k, Except.ok t => Except.ok ((c, k) :: t)
    | _, _ => Except.error ()

theorem keyedRows_ok :
    ∀ (rows : List Cell), (∀ c ∈ rows, cellOk c = true) →
      keyedRows rows = Except.ok (rows.map (fun c => (c, pureKey c))) := by
  intro rows
  induction rows with
  | nil => intro _; rfl
  | cons c rest ih =>
    intro h
    have hc := cellKey_eq_of_ok (h c (List.mem_cons_self _ _))
    have hrest := ih (fun x hx => h x (List.mem_cons_of_mem _ hx))
    unfold keyedRows
    rw [hc, hrest]
    rfl

/-- `fraud_data.sort_values('ip_int')` ordering. -/
def keyLe (a b : Cell × Nat) : Prop := a.2 ≤ b.2

instance : DecidableRel keyLe := fun a b => Nat.decLe a.2 b.2

instance : IsTotal (Cell × Nat) keyLe := ⟨fun a b => Nat.le_total a.2 b.2⟩

instance : IsTrans (Cell × Nat) keyLe := ⟨fun _ _ _ h1 h2 => Nat.le_trans h1 h2⟩

/-- What the geolocation merge makes of one keyed fraud row: the asof
candidate, then the filter
`lower_bound_ip_address <= ip_int <= upper_bound_ip_address`; an unmatched
asof row has NaN bounds, whose comparisons are false, so it is filtered
out. -/
def geoRowResult (ivs : List Interval) (c : Cell) (k : Nat) :
    Option (Cell × Nat × String) :=
  match lastLE k (sortByLower ivs) with
  | none => none
  | some iv =>
    if iv.lower ≤ k ∧ k ≤ iv.upper then some (c, k, iv.payload) else none

/-- `GeolocationAnalyzer.merge_fraud_with_geolocation`
(geolocation_analysis.py lines 53-95): convert each `ip_address` cell,
drop rows whose key is `None` (`dropna(subset=['ip_int'])`), sort by key,
asof-merge against the sorted reference table and filter by the bounds.
`Sum.inr` is the `except Exception` handler, which returns the input
fraud table unchanged when `int(x)` raises on some cell. -/
def merge_fraud_with_geolocation (rows : List Cell) (ivs : List Interval) :
    List (Cell × Nat × String) ⊕ List Cell :=
  match keyedRows rows with
  | Except.error _ => Sum.inr rows
  | Except.ok keyed =>
    let kept := keyed.filterMap (fun ck => ck.2.map (fun k => (ck.1, k)))
    let sorted := List.insertionSort keyLe kept
    Sum.inl (sorted.filterMap (fun ck => geoRowResult ivs ck.1 ck.2))

/-- Specification of the join output, phrased by interval containment: a
row survives exactly when its key parses and lies in some reference
interval, and it carries that interval's payload. -/
def keepSpec (ivs : List Interval) (c : Cell) : Option (Cell × Nat × String) :=
  (pureKey c).bind (fun k =>
    (ivs.find? (fun iv => decide (iv.lower ≤ k ∧ k ≤ iv.upper))).map
      (fun iv => (c, k, iv.payload)))

theorem geoRowResult_eq_find {ivs : List Interval} (hval : ValidRef ivs)
    (c : Cell) (k : Nat) :
    geoRowResult ivs c k
      = (ivs.find? (fun iv => decide (iv.lower ≤ k ∧ k ≤ iv.upper))).map
          (fun iv => (c, k, iv.payload)) := by
  by_cases hex : ∃ iv ∈ ivs, iv.lower ≤ k ∧ k ≤ iv.upper
  · obtain ⟨iv, hiv, h1, h2⟩ := hex
    have hlast : lastLE k (sortByLower ivs) = some iv :=
      lastLE_eq_of_contains hval hiv h1 h2
    have hfind : (ivs.find? (fun iv => decide (iv.lower ≤ k ∧ k ≤ iv.upper))).isSome := by
      rw [List.find?_isSome]
      exact ⟨iv, hiv, by simp [h1, h2]⟩
    obtain ⟨jv, hjv⟩ := Option.isSome_iff_exists.mp hfind
    have hjmem : jv ∈ ivs := List.mem_of_find?_eq_some hjv
    have hjprop : jv.lower ≤ k ∧ k ≤ jv.upper := by
      have := List.find?_some hjv
      simpa using this
    have : jv = iv := contains_unique hval hiv hjmem h1 h2 hjprop.1 hjprop.2
    subst this
    unfold geoRowResult
    rw [hlast, hjv]
    simp [hjprop.1, hjprop.2]
  · push_neg at hex
    have hnone : (ivs.find? (fun iv => decide (iv.lower ≤ k ∧ k ≤ iv.upper))) = none := by
      rw [List.find?_eq_none]
      intro iv hiv
      simp only [decide_eq_true_eq]
      rintro ⟨hl, hu⟩
      have := hex iv hiv hl
      omega
    rw [hnone]
    unfold geoRowResult
    cases hlast : lastLE k (sortByLower ivs) with
    | none => rfl
    | some c' =>
      obtain ⟨hcs, _⟩ := lastLE_mem_le hlast
      have hc' : c' ∈ ivs := mem_sortByLower.mp hcs
      have hnc : ¬(c'.lower ≤ k ∧ k ≤ c'.upper) := by
        rintro ⟨hl, hu⟩
        have := hex c' hc' hl
        omega
      simp [hnc]

/-- C3 (amended): whenever `int(x)` succeeds on every present address cell
(in particular for numeric-or-absent address columns), the geolocation
join's output contains exactly the records whose key is present, parsable
and contained in some reference interval — all other records are dropped.
When `int(x)` raises on some cell, the handler catches it (the call never
raises) but returns the whole input table unchanged instead of dropping
the offending record. -/
theorem c3_geolocation_join_output (rows : List Cell) (ivs : List Interval)
    (hval : ValidRef ivs) (hok : ∀ c ∈ rows, cellOk c = true) :
    ∃ out, merge_fraud_with_geolocation rows ivs = Sum.inl out
      ∧ out.Perm (rows.filterMap (keepSpec ivs)) := by
  unfold merge_fraud_with_geolocation
  rw [keyedRows_ok rows hok]
  refine ⟨_, rfl, ?_⟩
  refine ((List.perm_insertionSort keyLe _).filterMap _).trans ?_
  rw [List.filterMap_map, List.filterMap_filterMap]
  have hpt : ∀ c ∈ rows,
      ((((fun ck => Option.map (fun k => (ck.1, k)) ck.2) ∘ fun c => (c, pureKey c)) c).bind
        (fun ck => geoRowResult ivs ck.1 ck.2)) = keepSpec ivs c := by
    intro c _
    show ((pureKey c).map (fun k => (c, k))).bind
        (fun ck => geoRowResult ivs ck.1 ck.2) = keepSpec ivs c
    cases hp : pureKey c with
    | none => simp [keepSpec, hp]
    | some k =>
      rw [keepSpec, hp]
      simp only [Option.map_some', Option.some_bind]
      exact geoRowResult_eq_find hval c k
  rw [List.filterMap_congr hpt]

/-- C3 counterexample: on a table containing the malformed string address
`"abc"`, `int(x)` raises, the handler returns the entire input table, and
the unparsable record is NOT dropped from the output (the call still does
not raise). -/
theorem c3_geolocation_join_output_counterexample :
    merge_fraud_with_geolocation [Cell.str "abc"] [⟨0, 10, "A"⟩]
      = Sum.inr [Cell.str "abc"] := by decide

/-- Witness for C3: one matched numeric key, one absent cell, one numeric
key outside every interval. -/
theorem c3_geolocation_join_output_witness :
    ∃ out, merge_fraud_with_geolocation [Cell.num 5, Cell.absent, Cell.num 10]
        [⟨0, 7, "A"⟩] = Sum.inl out
      ∧ out.Perm ([Cell.num 5, Cell.absent, Cell.num 10].filterMap
          (keepSpec [⟨0, 7, "A"⟩])) :=
  c3_geolocation_join_output [Cell.num 5, Cell.absent, Cell.num 10]
    [⟨0, 7, "A"⟩] (by decide) (by decide)

/-- The payload `pd.merge_asof(..., direction='backward')` attaches in
`DataMerger.merge_datasets` (data_merging.py lines 55-61): that of the
last interval with `lower_bound <= key` — the upper bound is never
checked; `none` is the NaN payload of a row matching no interval. -/
def asofPayload (ivs : List Interval) (k : Nat) : Option String :=
  (lastLE k (sortByLower ivs)).map Interval.payload

/-- `DataMerger.merge_datasets`: sorts the fraud keys and left-joins every
row with its asof payload; no row is dropped. -/
def merge_datasets (keys : List Nat) (ivs : List Interval) :
    List (Nat × Option String) :=
  (List.insertionSort (fun a b : Nat => a ≤ b) keys).map
    (fun k => (k, asofPayload ivs k))

/-- C10: on a valid reference set the two join implementations agree on
every matched key (same payload); on an unmatched key
`merge_fraud_with_geolocation` drops the record while `merge_datasets`
keeps it, attaching the payload of the interval with the greatest lower
bound not exceeding the key (it never checks the upper bound), or a null
payload when every lower bound exceeds the key. -/
theorem c10_two_joins (ivs : List Interval) (hval : ValidRef ivs)
    (keys : List Nat) (k : Nat) (hk : k ∈ keys) :
    ((∃ iv ∈ ivs, iv.lower ≤ k ∧ k ≤ iv.upper) →
       ∃ iv ∈ ivs, iv.lower ≤ k ∧ k ≤ iv.upper
         ∧ (∀ c, geoRowResult ivs c k = some (c, k, iv.payload))
         ∧ (k, some iv.payload) ∈ merge_datasets keys ivs)
    ∧ ((∀ iv ∈ ivs, ¬(iv.lower ≤ k ∧ k ≤ iv.upper)) →
       (∀ c, geoRowResult ivs c k = none)
       ∧ (k, asofPayload ivs k) ∈ merge_datasets keys ivs
       ∧ (merge_datasets keys ivs).length = keys.length
       ∧ (∀ iv, lastLE k (sortByLower ivs) = some iv →
            iv ∈ ivs ∧ iv.lower ≤ k
            ∧ ∀ jv ∈ ivs, jv.lower ≤ k → jv.lower ≤ iv.lower)
       ∧ (lastLE k (sortByLower ivs) = none → ∀ iv ∈ ivs, k < iv.lower)) := by
  have hmem : (k, asofPayload ivs k) ∈ merge_datasets keys ivs := by
    unfold merge_datasets
    exact List.mem_map_of_mem _ ((List.mem_insertionSort _).mpr hk)
  constructor
  · rintro ⟨iv, hiv, h1, h2⟩
    have hlast : lastLE k (sortByLower ivs) = some iv :=
      lastLE_eq_of_contains hval hiv h1 h2
    refine ⟨iv, hiv, h1, h2, ?_, ?_⟩
    · intro c
      unfold geoRowResult
      rw [hlast]
      simp [h1, h2]
    · have : asofPayload ivs k = some iv.payload := by
        unfold asofPayload
        rw [hlast]
        rfl
      rw [← this]
      exact hmem
  · intro hno
    refine ⟨?_, hmem, ?_, ?_, ?_⟩
    · intro c
      unfold geoRowResult
      cases hlast : lastLE k (sortByLower ivs) with
      | none => rfl
      | some c' =>
        obtain ⟨hcs, _⟩ := lastLE_mem_le hlast
        have hc' : c' ∈ ivs := mem_sortByLower.mp hcs
        simp only [ite_eq_right_iff]
        intro hcon
        exact absurd hcon (hno c' hc')
    · unfold merge_datasets
      rw [List.length_map, List.length_insertionSort]
    · intro iv hlast
      obtain ⟨hcs, hck⟩ := lastLE_mem_le hlast
      exact ⟨mem_sortByLower.mp hcs, hck,
        fun jv hjv hjk =>
          lastLE_max (sorted_sortByLower ivs) hlast jv (mem_sortByLower.mpr hjv) hjk⟩
    · intro hlast iv hiv
      exact lastLE_none hlast iv (mem_sortByLower.mpr hiv)

/-- Witness for C10 at an unmatched key 15 lying between the two intervals:
the geolocation join drops it, `merge_datasets` keeps it with the stale
payload of the earlier interval. -/
theorem c10_two_joins_witness :
    (∀ c, geoRowResult [⟨0, 9, "A"⟩, ⟨20, 29, "B"⟩] c 15 = none)
    ∧ (15, asofPayload [⟨0, 9, "A"⟩, ⟨20, 29, "B"⟩] 15)
        ∈ merge_datasets [15, 5] [⟨0, 9, "A"⟩, ⟨20, 29, "B"⟩]
    ∧ asofPayload [⟨0, 9, "A"⟩, ⟨20, 29, "B"⟩] 15 = some "A" :=
  ⟨((c10_two_joins [⟨0, 9, "A"⟩, ⟨20, 29, "B"⟩] (by decide) [15, 5] 15
      (by decide)).2 (by decide)).1,
   ((c10_two_joins [⟨0, 9, "A"⟩, ⟨20, 29, "B"⟩] (by decide) [15, 5] 15
      (by decide)).2 (by decide)).2.1,
   by decide⟩

theorem foldl_min_le {α : Type} [LinearOrder α] :
    ∀ (xs : List α) (a : α), xs.foldl min a ≤ a ∧ ∀ y ∈ xs, xs.foldl min a ≤ y := by
  intro xs
  induction xs with
  | nil => intro a; exact ⟨le_refl a, fun y hy => absurd hy (List.not_mem_nil y)⟩
  | cons x t ih =>
    intro a
    have h := ih (min a x)
    refine ⟨h.1.trans (min_le_left a x), ?_⟩
    intro y hy
    rcases List.mem_cons.mp hy with rfl | hyt
    · exact h.1.trans (min_le_right a y)
    · exact h.2 y hyt

theorem foldl_max_le {α : Type} [LinearOrder α] :
    ∀ (xs : List α) (a : α), a ≤ xs.foldl max a ∧ ∀ y ∈ xs, y ≤ xs.foldl max a := by
  intro xs
  induction xs with
  | nil => intro a; exact ⟨le_refl a, fun y hy => absurd hy (List.not_mem_nil y)⟩
  | cons x t ih =>
    intro a
    have h := ih (max a x)
    refine ⟨(le_max_left a x).trans h.1, ?_⟩
    intro y hy
    rcases List.mem_cons.mp hy with rfl | hyt
    · exact (le_max_right a y).trans h.1
    · exact h.2 y hyt

theorem foldl_min_mem {α : Type} [LinearOrder α] :
    ∀ (xs : List α) (a : α), xs.foldl min a = a ∨ xs.foldl min a ∈ xs := by
  intro xs
  induction xs with
  | nil => intro a; exact Or.inl rfl
  | cons x t ih =>
    intro a
    rcases ih (min a x) with h | h
    · rcases min_choice a x with hc | hc
      · left; rw [List.foldl_cons, h, hc]
      · right; rw [List.foldl_cons, h, hc]; exact List.mem_cons_self _ _
    · right; exact List.mem_cons_of_mem _ h

theorem foldl_max_mem {α : Type} [LinearOrder α] :
    ∀ (xs : List α) (a : α), xs.foldl max a = a ∨ xs.foldl max a ∈ xs := by
  intro xs
  induction xs with
  | nil => intro a; exact Or.inl rfl
  | cons x t ih =>
    intro a
    rcases ih (max a x) with h | h
    · rcases max_choice a x with hc | hc
      · left; rw [List.foldl_cons, h, hc]
      · right; rw [List.foldl_cons, h, hc]; exact List.mem_cons_self _ _
    · right; exact List.mem_cons_of_mem _ h

/-- Minimum of a column (`Series.min`), folded from its first element. -/
def colMin {α : Type} [LinearOrder α] [Inhabited α] : List α → α
  | [] => default
  | x :: xs => xs.foldl min x

/-- Maximum of a column (`Series.max`), folded from its first element. -/
def colMax {α : Type} [LinearOrder α] [Inhabited α] : List α → α
  | [] => default
  | x :: xs => xs.foldl max x

theorem colMin_le {α : Type} [LinearOrder α] [Inhabited α]
    {xs : List α} {y : α} (hy : y ∈ xs) : colMin xs ≤ y := by
  cases xs with
  | nil => cases hy
  | cons x t =>
    rcases List.mem_cons.mp hy with rfl | hyt
    · exact (foldl_min_le t y).1
    · exact (foldl_min_le t x).2 y hyt

theorem le_colMax {α : Type} [LinearOrder α] [Inhabited α]
    {xs : List α} {y : α} (hy : y ∈ xs) : y ≤ colMax xs := by
  cases xs with
  | nil => cases hy
  | cons x t =>
    rcases List.mem_cons.mp hy with rfl | hyt
    · exact (foldl_max_le t y).1
    · exact (foldl_max_le t x).2 y hyt

theorem colMin_mem {α : Type} [LinearOrder α] [Inhabited α]
    {xs : List α} (h : xs ≠ []) : colMin xs ∈ xs := by
  cases xs with
  | nil => exact absurd rfl h
  | cons x t =>
    show t.foldl min x ∈ x :: t
    rcases foldl_min_mem t x with he | he
    · rw [he]; exact List.mem_cons_self _ _
    · exact List.mem_cons_of_mem _ he

theorem colMax_mem {α : Type} [LinearOrder α] [Inhabited α]
    {xs : List α} (h : xs ≠ []) : colMax xs ∈ xs := by
  cases xs with
  | nil => exact absurd rfl h
  | cons x t =>
    show t.foldl max x ∈ x :: t
    rcases foldl_max_mem t x with he | he
    · rw [he]; exact List.mem_cons_self _ _
    · exact List.mem_cons_of_mem _ he

/-- One row as seen by `FeatureEngineer.create_transaction_features`: the
grouping identity (`user_id`) and a transaction timestamp in whole
seconds. -/
structure Tx where
  user : Nat
  time : Nat
deriving DecidableEq, Repr

/-- `data.groupby(user_id)[time].transform('count')` for one group. -/
def txCount (rows : List Tx) (u : Nat) : Nat :=
  (rows.filter (fun r => r.user == u)).length

/-- The timestamps of one group. -/
def groupTimes (rows : List Tx) (u : Nat) : List Nat :=
  (rows.filter (fun r => r.user == u)).map Tx.time

/-- `(x.max() - x.min()).days + 1` per group: `Timedelta.days` floors the
non-negative span to whole days (86400 seconds per day). -/
def daysSinceFirst (rows : List Tx) (u : Nat) : Nat :=
  (colMax (groupTimes rows u) - colMin (groupTimes rows u)) / 86400 + 1

/-- `transaction_count / days_since_first_transaction` per group. -/
def txVelocity (rows : List Tx) (u : Nat) : Rat :=
  (txCount rows u : Rat) / (daysSinceFirst rows u : Rat)

/-- `FeatureEngineer.create_transaction_features` (feature_engineering.py
lines 40-66): broadcasts the three per-group derived columns onto every
row of the group. -/
def create_transaction_features (rows : List Tx) :
    List (Tx × Nat × Nat × Rat) :=
  rows.map (fun r =>
    (r, txCount rows r.user, daysSinceFirst rows r.user, txVelocity rows r.user))

/-- C4: on every row, `transaction_count` is the size of the row's group,
`days_since_first_transaction` is the floored day span of the group plus
one (hence at least 1, so the velocity divisor is never zero), and
`transaction_velocity` is their quotient; rows sharing a group key get
identical derived values; and the spec's example (one user, transactions
at days 0 and 5) yields counts `(2, 6, 2/6)` on both rows. -/
theorem c4_transaction_features (rows : List Tx) :
    (∀ e ∈ create_transaction_features rows,
       e.2.1 = (rows.filter (fun r => r.user == e.1.user)).length
       ∧ e.2.2.1 = (colMax (groupTimes rows e.1.user)
            - colMin (groupTimes rows e.1.user)) / 86400 + 1
       ∧ 1 ≤ e.2.2.1
       ∧ e.2.2.2 = (e.2.1 : Rat) / (e.2.2.1 : Rat)
       ∧ (e.2.2.1 : Rat) ≠ 0)
    ∧ (∀ e ∈ create_transaction_features rows,
       ∀ e2 ∈ create_transaction_features rows, e.1.user = e2.1.user → e.2 = e2.2)
    ∧ create_transaction_features [⟨7, 0⟩, ⟨7, 432000⟩]
        = [(⟨7, 0⟩, 2, 6, 2/6), (⟨7, 432000⟩, 2, 6, 2/6)] := by
  have h1 : txCount [(⟨7, 0⟩ : Tx), ⟨7, 432000⟩] 7 = 2 := by decide
  have h2 : daysSinceFirst [(⟨7, 0⟩ : Tx), ⟨7, 432000⟩] 7 = 6 := by decide
  have h3 : txVelocity [(⟨7, 0⟩ : Tx), ⟨7, 432000⟩] 7 = 2 / 6 := by
    unfold txVelocity
    rw [h1, h2]
    norm_num
  refine ⟨?_, ?_, ?_⟩
  · intro e he
    obtain ⟨r, _, rfl⟩ := List.mem_map.mp he
    refine ⟨rfl, rfl, Nat.le_add_left 1 _, rfl, ?_⟩
    show ((daysSinceFirst rows r.user : Nat) : Rat) ≠ 0
    rw [Nat.cast_ne_zero]
    unfold daysSinceFirst
    omega
  · intro e he e2 he2 hu
    obtain ⟨r, _, rfl⟩ := List.mem_map.mp he
    obtain ⟨r2, _, rfl⟩ := List.mem_map.mp he2
    show (txCount rows r.user, daysSinceFirst rows r.user, txVelocity rows r.user)
      = (txCount rows r2.user, daysSinceFirst rows r2.user, txVelocity rows r2.user)
    rw [show r.user = r2.user from hu]
  · unfold create_transaction_features
    simp only [List.map_cons, List.map_nil]
    simp [h1, h2, h3]

/-- Witness for C4 at the spec's two-row example. -/
theorem c4_transaction_features_witness :
    (2 : Nat) = ([Tx.mk 7 0, Tx.mk 7 432000].filter
        (fun r => r.user == 7)).length
    ∧ create_transaction_features [⟨7, 0⟩, ⟨7, 432000⟩]
        = [(⟨7, 0⟩, 2, 6, 2/6), (⟨7, 432000⟩, 2, 6, 2/6)] := by
  have h3 := (c4_transaction_features []).2.2
  have hmem : ((⟨7, 0⟩ : Tx), (2 : Nat), (6 : Nat), (2 / 6 : Rat))
      ∈ create_transaction_features [⟨7, 0⟩, ⟨7, 432000⟩] := by
    rw [h3]
    exact List.mem_cons_self _ _
  exact ⟨((c4_transaction_features [⟨7, 0⟩, ⟨7, 432000⟩]).1 _ hmem).1, h3⟩

/-- One numeric column through `MinMaxScaler.fit_transform`
(sklearn, used by `DataCleaner.normalize_columns`, data_cleaning.py lines
120-130, and `FeatureEngineer.normalize_numerical_features`,
feature_engineering.py lines 98-110): `(x - min) / (max - min)`, where
sklearn's zero-range guard replaces a zero `max - min` by 1. -/
def minMaxScale (xs : List Rat) : List Rat :=
  xs.map (fun x =>
    (x - colMin xs) /
      (if colMax xs - colMin xs = 0 then 1 else colMax xs - colMin xs))

/-- C6: a column with two distinct values is scaled onto `[0, 1]` with its
minimum at exactly 0 and its maximum at exactly 1; a constant column is
mapped to all zeros by the divide-by-zero guard. -/
theorem c6_minmax_normalize (xs : List Rat) :
    ((∃ a ∈ xs, ∃ b ∈ xs, a ≠ b) →
       minMaxScale xs
           = xs.map (fun x => (x - colMin xs) / (colMax xs - colMin xs))
       ∧ (0 : Rat) ∈ minMaxScale xs
       ∧ (1 : Rat) ∈ minMaxScale xs
       ∧ (∀ x ∈ xs, x = colMin xs →
            (x - colMin xs) / (colMax xs - colMin xs) = 0)
       ∧ (∀ x ∈ xs, x = colMax xs →
            (x - colMin xs) / (colMax xs - colMin xs) = 1)
       ∧ (∀ y ∈ minMaxScale xs, 0 ≤ y ∧ y ≤ 1))
    ∧ ((∀ a ∈ xs, ∀ b ∈ xs, a = b) → ∀ y ∈ minMaxScale xs, y = 0) := by
  constructor
  · rintro ⟨a, ha, b, hb, hab⟩
    have hne : xs ≠ [] := fun h => by rw [h] at ha; cases ha
    have hlt : colMin xs < colMax xs := by
      rcases lt_or_le (colMin xs) (colMax xs) with h | h
      · exact h
      · have h1 : colMax xs ≤ a := le_trans h (colMin_le ha)
        have h2 : colMax xs ≤ b := le_trans h (colMin_le hb)
        have h3 : a ≤ colMax xs := le_colMax ha
        have h4 : b ≤ colMax xs := le_colMax hb
        exact absurd ((le_antisymm h3 h1).trans (le_antisymm h4 h2).symm) hab
    have hd : colMax xs - colMin xs ≠ 0 := sub_ne_zero.mpr (ne_of_gt hlt)
    have hdpos : (0 : Rat) < colMax xs - colMin xs := sub_pos.mpr hlt
    have heq : minMaxScale xs
        = xs.map (fun x => (x - colMin xs) / (colMax xs - colMin xs)) := by
      simp only [minMaxScale, if_neg hd]
    refine ⟨heq, ?_, ?_, ?_, ?_, ?_⟩
    · rw [heq]
      refine List.mem_map.mpr ⟨colMin xs, colMin_mem hne, ?_⟩
      show (colMin xs - colMin xs) / (colMax xs - colMin xs) = 0
      rw [sub_self, zero_div]
    · rw [heq]
      refine List.mem_map.mpr ⟨colMax xs, colMax_mem hne, ?_⟩
      show (colMax xs - colMin xs) / (colMax xs - colMin xs) = 1
      exact div_self hd
    · intro x _ hx
      rw [hx, sub_self, zero_div]
    · intro x _ hx
      rw [hx]
      exact div_self hd
    · rw [heq]
      intro y hy
      obtain ⟨x, hx, rfl⟩ := List.mem_map.mp hy
      refine ⟨?_, ?_⟩
      · show (0 : Rat) ≤ (x - colMin xs) / (colMax xs - colMin xs)
        exact div_nonneg (sub_nonneg.mpr (colMin_le hx)) (le_of_lt hdpos)
      · show (x - colMin xs) / (colMax xs - colMin xs) ≤ 1
        rw [div_le_one hdpos]
        exact sub_le_sub_right (le_colMax hx) _
  · intro hconst y hy
    obtain ⟨x, hx, rfl⟩ := List.mem_map.mp hy
    have hne : xs ≠ [] := fun h => by rw [h] at hx; cases hx
    have hxmin : x = colMin xs := hconst x hx (colMin xs) (colMin_mem hne)
    show (x - colMin xs) /
        (if colMax xs - colMin xs = 0 then 1 else colMax xs - colMin xs) = 0
    rw [hxmin, sub_self, zero_div]

/-- Witness for C6 on the two-valued column `[1, 3]` and the constant
column `[2, 2]`. -/
theorem c6_minmax_normalize_witness :
    ((0 : Rat) ∈ minMaxScale [1, 3] ∧ (1 : Rat) ∈ minMaxScale [1, 3]
      ∧ ∀ y ∈ minMaxScale [1, 3], 0 ≤ y ∧ y ≤ 1)
    ∧ ∀ y ∈ minMaxScale [2, 2], y = 0 :=
  ⟨⟨((c6_minmax_normalize [1, 3]).1
        ⟨1, by decide, 3, by decide, by decide⟩).2.1,
    ((c6_minmax_normalize [1, 3]).1
        ⟨1, by decide, 3, by decide, by decide⟩).2.2.1,
    ((c6_minmax_normalize [1, 3]).1
        ⟨1, by decide, 3, by decide, by decide⟩).2.2.2.2.2⟩,
   (c6_minmax_normalize [2, 2]).2 (by decide)⟩

/-- `data[col].nunique()`: the number of distinct non-null values of an
object column (null cells are `none`). -/
def nuniqueCount (col : List (Option String)) : Nat :=
  ((col.filterMap id).dedup).length

/-- The distinct non-null categories, in the sorted order
`pd.get_dummies` gives its indicator columns. -/
def dummyCats (col : List (Option String)) : List String :=
  List.insertionSort (fun a b : String => a ≤ b) (col.filterMap id).dedup

/-- `DataCleaner.encode_categorical` (data_cleaning.py lines 132-153) on
one object column: if `nunique <= cardinality_threshold`, replace the
column by `pd.get_dummies(..., drop_first=drop_first)` — one boolean
indicator column per category (minus the first category when
`drop_first`), a null cell indicating in no column; otherwise the column
is left untouched (`Sum.inl`) and only a warning is logged. -/
def encode_categorical (col : List (Option String)) (dropFirst : Bool)
    (threshold : Nat) :
    List (Option String) ⊕ List (String × List Bool) :=
  if nuniqueCount col ≤ threshold then
    Sum.inr ((if dropFirst then (dummyCats col).tail else dummyCats col).map
      (fun c => (c, col.map (fun v => v == some c))))
  else Sum.inl col

/-- C7: the one-hot encoder expands a categorical column only when its
distinct non-null count is at most the cardinality threshold — one binary
indicator per distinct non-null category (without `drop_first`); a column
whose distinct count exceeds the threshold passes through completely
untouched and contributes no indicator columns. -/
theorem c7_onehot_cardinality_gate (col : List (Option String))
    (dropFirst : Bool) (threshold : Nat) :
    (threshold < nuniqueCount col →
       encode_categorical col dropFirst threshold = Sum.inl col)
    ∧ (nuniqueCount col ≤ threshold →
       ∃ inds, encode_categorical col dropFirst threshold = Sum.inr inds
         ∧ (dropFirst = false →
              (inds.map Prod.fst).Nodup
              ∧ (∀ s, s ∈ inds.map Prod.fst ↔ some s ∈ col)
              ∧ (inds.map Prod.fst).length = nuniqueCount col
              ∧ ∀ p ∈ inds, p.2 = col.map (fun v => v == some p.1))) := by
  constructor
  · intro h
    unfold encode_categorical
    rw [if_neg (not_le.mpr h)]
  · intro h
    refine ⟨_, by unfold encode_categorical; rw [if_pos h], ?_⟩
    rintro rfl
    simp only [Bool.false_eq_true, if_false]
    have hfst : ((dummyCats col).map
        (fun c => (c, col.map (fun v => v == some c)))).map Prod.fst
        = dummyCats col := by
      rw [List.map_map]
      exact List.map_id _
    have hperm : (dummyCats col).Perm (col.filterMap id).dedup :=
      List.perm_insertionSort _ _
    refine ⟨?_, ?_, ?_, ?_⟩
    · rw [hfst]
      exact hperm.nodup_iff.mpr (List.nodup_dedup _)
    · intro s
      rw [hfst]
      unfold dummyCats
      rw [List.mem_insertionSort, List.mem_dedup, List.mem_filterMap]
      constructor
      · rintro ⟨o, ho, hos⟩
        cases o with
        | none => cases hos
        | some v => cases hos; exact ho
      · intro hs
        exact ⟨some s, hs, rfl⟩
    · rw [hfst]
      exact hperm.length_eq
    · intro p hp
      obtain ⟨c, _, rfl⟩ := List.mem_map.mp hp
      rfl

/-- Witness for C7: with threshold 2, a column with 3 distinct categories
passes through untouched. -/
theorem c7_onehot_cardinality_gate_witness :
    2 < nuniqueCount [some "a", some "b", some "c"]
    ∧ encode_categorical [some "a", some "b", some "c"] true 2
        = Sum.inl [some "a", some "b", some "c"] :=
  ⟨by decide,
   (c7_onehot_cardinality_gate [some "a", some "b", some "c"] true 2).1
     (by decide)⟩

/-- `numpy.ndarray.all(axis=...)`: numpy raises `AxisError` unless
`axis < ndim`. -/
def npAllAxis (axis ndim : Nat) (bs : List Bool) : Except String Bool :=
  if axis < ndim then Except.ok (bs.all id)
  else Except.error "axis 1 is out of bounds for array of dimension 1"

/-- The `zscore` branch of `DataCleaner.handle_outliers`
(data_cleaning.py lines 110-113), `df[(zscore(df[col]) < 3).all(axis=1)]`,
on a zero-variance column: `scipy.stats.zscore` divides by the zero
standard deviation, producing NaN for every entry; each comparison
`NaN < 3` is `False`; and `.all(axis=1)` is then applied to this
1-dimensional boolean array, so the row selection after it is never
reached. -/
def handle_outliers_zscore_const (xs : List Rat) : Except String (List Rat) :=
  match npAllAxis 1 1 (xs.map (fun _ => false)) with
  | Except.error e => Except.error e
  | Except.ok _ => Except.ok xs

/-- C8 (code bug): on a zero-variance column the zscore-remove branch is
NOT a recovered no-op — `(zscore(df[col]) < 3).all(axis=1)` passes
`axis=1` to a 1-dimensional array, so numpy raises `AxisError` instead of
keeping every row; there is no handler in `handle_outliers`, so the call
raises. -/
theorem c8_zscore_zero_stdev (xs : List Rat)
    (_hconst : ∀ a ∈ xs, ∀ b ∈ xs, a = b) :
    handle_outliers_zscore_const xs
      = Except.error "axis 1 is out of bounds for array of dimension 1" := by
  unfold handle_outliers_zscore_const npAllAxis
  simp

/-- Witness for C8 on the constant column `[5, 5, 5]`. -/
theorem c8_zscore_zero_stdev_witness :
    handle_outliers_zscore_const [5, 5, 5]
      = Except.error "axis 1 is out of bounds for array of dimension 1" :=
  c8_zscore_zero_stdev [5, 5, 5] (by
    intro a ha b hb
    simp at ha hb
    rw [ha, hb])

/-- The ascending sort a pandas quantile performs on the column. -/
def sortedOf (xs : List Rat) : List Rat :=
  List.insertionSort (fun a b : Rat => a ≤ b) xs

/-- The interpolation position `q * (n - 1)` of `Series.quantile`. -/
def quantileIdx (xs : List Rat) (q : Rat) : Rat :=
  q * ((xs.length : Rat) - 1)

/-- `Series.quantile(q)` with the default linear interpolation: with
sorted values `v` and `h = q * (n - 1)`, the result is
`v[floor h] + (h - floor h) * (v[floor h + 1] - v[floor h])` (the upper
index falls back to the lower value at the end of the list). -/
def pandasQuantile (xs : List Rat) (q : Rat) : Rat :=
  (sortedOf xs).getD (Int.toNat ⌊quantileIdx xs q⌋) 0
    + (quantileIdx xs q - (⌊quantileIdx xs q⌋ : Rat))
      * ((sortedOf xs).getD (Int.toNat ⌊quantileIdx xs q⌋ + 1)
           ((sortedOf xs).getD (Int.toNat ⌊quantileIdx xs q⌋) 0)
         - (sortedOf xs).getD (Int.toNat ⌊quantileIdx xs q⌋) 0)

/-- The lower fence `Q1 - 1.5 * IQR` of
`EDA.detect_outliers(..., method="iqr")` (data_exploration.py lines
72-77). -/
def iqrLb (xs : List Rat) : Rat :=
  pandasQuantile xs (1/4)
    - 3/2 * (pandasQuantile xs (3/4) - pandasQuantile xs (1/4))

/-- The upper fence `Q3 + 1.5 * IQR`. -/
def iqrUb (xs : List Rat) : Rat :=
  pandasQuantile xs (3/4)
    + 3/2 * (pandasQuantile xs (3/4) - pandasQuantile xs (1/4))

/-- `EDA.detect_outliers(..., method="iqr", cap=True)`
(data_exploration.py lines 86-89): two successive `np.where` passes, the
first clamping below the lower fence, the second clamping the result
above the upper fence; both fences are computed from the column's values
before capping. -/
def iqrCap (xs : List Rat) : List Rat :=
  (xs.map (fun x => if x < iqrLb xs then iqrLb xs else x)).map
    (fun x => if iqrUb xs < x then iqrUb xs else x)

/-- The composite effect of the two `np.where` passes on one value. -/
def capAt (lb ub x : Rat) : Rat :=
  if ub < (if x < lb then lb else x) then ub else (if x < lb then lb else x)

theorem iqrCap_eq_map (xs : List Rat) :
    iqrCap xs = xs.map (capAt (iqrLb xs) (iqrUb xs)) := by
  unfold iqrCap capAt
  rw [List.map_map]
  rfl

theorem capAt_mono {lb ub : Rat} (hlu : lb ≤ ub) {a b : Rat} (hab : a ≤ b) :
    capAt lb ub a ≤ capAt lb ub b := by
  unfold capAt
  split_ifs <;> linarith

theorem capAt_eq_self {lb ub x : Rat} (hxl : lb ≤ x) (hxu : x ≤ ub) :
    capAt lb ub x = x := by
  unfold capAt
  rw [if_neg (not_lt.mpr hxl), if_neg (not_lt.mpr hxu)]

theorem capAt_bounds {lb ub : Rat} (hlu : lb ≤ ub) (x : Rat) :
    lb ≤ capAt lb ub x ∧ capAt lb ub x ≤ ub := by
  unfold capAt
  split_ifs <;> constructor <;> linarith

theorem capAt_idem {lb ub : Rat} (hlu : lb ≤ ub) (x : Rat) :
    capAt lb ub (capAt lb ub x) = capAt lb ub x :=
  capAt_eq_self (capAt_bounds hlu x).1 (capAt_bounds hlu x).2

theorem sortedOf_sorted (xs : List Rat) :
    (sortedOf xs).Sorted (fun a b : Rat => a ≤ b) :=
  List.sorted_insertionSort _ xs

theorem sortedOf_length (xs : List Rat) : (sortedOf xs).length = xs.length :=
  List.length_insertionSort _ xs

/-- Capping is monotone, so sorting commutes with it. -/
theorem sortedOf_map_mono {g : Rat → Rat} (hg : ∀ a b : Rat, a ≤ b → g a ≤ g b)
    (xs : List Rat) : sortedOf (xs.map g) = (sortedOf xs).map g := by
  refine List.eq_of_perm_of_sorted ?_ (List.sorted_insertionSort _ _) ?_
  · exact (List.perm_insertionSort _ _).trans
      ((List.perm_insertionSort _ xs).map g).symm
  · exact List.Pairwise.map g hg (List.sorted_insertionSort _ xs)

theorem getD_map_lt (g : Rat → Rat) {s : List Rat} {i : Nat} (h : i < s.length) :
    (s.map g).getD i 0 = g (s.getD i 0) := by
  rw [List.getD_eq_getElem _ _ (by simpa using h), List.getD_eq_getElem _ _ h,
    List.getElem_map]

theorem sorted_getD_le {s : List Rat}
    (hs : s.Sorted (fun a b : Rat => a ≤ b)) {i j : Nat} (hij : i ≤ j)
    (hj : j < s.length) : s.getD i 0 ≤ s.getD j 0 := by
  rcases Nat.eq_or_lt_of_le hij with rfl | hlt
  · exact le_refl _
  · have hi : i < s.length := lt_of_le_of_lt hij hj
    rw [List.getD_eq_getElem _ _ hi, List.getD_eq_getElem _ _ hj]
    have := @List.Sorted.rel_get_of_lt Rat (fun a b : Rat => a ≤ b) s hs
      ⟨i, hi⟩ ⟨j, hj⟩ hlt
    simpa [List.get_eq_getElem] using this

/-- When the interpolation position is a whole number, the quantile is the
order statistic at that index. -/
theorem pandasQuantile_int_idx {xs : List Rat} {q : Rat} {i : Nat}
    (h : quantileIdx xs q = (i : Rat)) :
    pandasQuantile xs q = (sortedOf xs).getD i 0 := by
  unfold pandasQuantile
  rw [h, Int.floor_natCast, Int.toNat_natCast, Int.cast_natCast, sub_self,
    zero_mul, add_zero]

/-- C5 (amended): the iqr-cap outlier transform is idempotent on every
column whose length `n` satisfies `n % 4 == 1`, because then the quartile
positions `(n-1)/4` and `3(n-1)/4` are whole indices and capping fixes
both order statistics, so the second pass recomputes the same fences; for
general lengths idempotence FAILS (see the counterexample `[-1,0,0,0]`,
where interpolation lets the capped minimum drag the first quartile and
the fences move on the second pass). -/
theorem c5_iqr_cap_idempotent (xs : List Rat) (hlen : xs.length % 4 = 1) :
    iqrCap (iqrCap xs) = iqrCap xs := by
  obtain ⟨m, hm⟩ : ∃ m, xs.length = 4 * m + 1 := ⟨xs.length / 4, by omega⟩
  have hidx1 : quantileIdx xs (1/4) = ((m : Nat) : Rat) := by
    unfold quantileIdx
    rw [hm]
    push_cast
    ring
  have hidx3 : quantileIdx xs (3/4) = ((3 * m : Nat) : Rat) := by
    unfold quantileIdx
    rw [hm]
    push_cast
    ring
  have hq1 : pandasQuantile xs (1/4) = (sortedOf xs).getD m 0 :=
    pandasQuantile_int_idx hidx1
  have hq3 : pandasQuantile xs (3/4) = (sortedOf xs).getD (3 * m) 0 :=
    pandasQuantile_int_idx hidx3
  have hmlt : m < (sortedOf xs).length := by rw [sortedOf_length, hm]; omega
  have h3mlt : 3 * m < (sortedOf xs).length := by rw [sortedOf_length, hm]; omega
  have hQ : pandasQuantile xs (1/4) ≤ pandasQuantile xs (3/4) := by
    rw [hq1, hq3]
    exact sorted_getD_le (sortedOf_sorted xs) (by omega) h3mlt
  have hlb_le_q1 : iqrLb xs ≤ pandasQuantile xs (1/4) := by
    unfold iqrLb
    linarith
  have hq1_le_ub : pandasQuantile xs (1/4) ≤ iqrUb xs := by
    unfold iqrUb
    linarith
  have hlb_le_q3 : iqrLb xs ≤ pandasQuantile xs (3/4) := by
    unfold iqrLb
    linarith
  have hq3_le_ub : pandasQuantile xs (3/4) ≤ iqrUb xs := by
    unfold iqrUb
    linarith
  have hlu : iqrLb xs ≤ iqrUb xs := le_trans hlb_le_q1 hq1_le_ub
  have hmono : ∀ a b : Rat, a ≤ b →
      capAt (iqrLb xs) (iqrUb xs) a ≤ capAt (iqrLb xs) (iqrUb xs) b :=
    fun _ _ hab => capAt_mono hlu hab
  have hys_len : (iqrCap xs).length = xs.length := by
    rw [iqrCap_eq_map, List.length_map]
  have hs_ys : sortedOf (iqrCap xs)
      = (sortedOf xs).map (capAt (iqrLb xs) (iqrUb xs)) := by
    rw [iqrCap_eq_map]
    exact sortedOf_map_mono hmono xs
  have hidx1' : quantileIdx (iqrCap xs) (1/4) = ((m : Nat) : Rat) := by
    unfold quantileIdx
    rw [hys_len, hm]
    push_cast
    ring
  have hidx3' : quantileIdx (iqrCap xs) (3/4) = ((3 * m : Nat) : Rat) := by
    unfold quantileIdx
    rw [hys_len, hm]
    push_cast
    ring
  have hq1' : pandasQuantile (iqrCap xs) (1/4) = pandasQuantile xs (1/4) := by
    rw [pandasQuantile_int_idx hidx1', hs_ys, getD_map_lt _ hmlt, ← hq1]
    exact capAt_eq_self hlb_le_q1 hq1_le_ub
  have hq3' : pandasQuantile (iqrCap xs) (3/4) = pandasQuantile xs (3/4) := by
    rw [pandasQuantile_int_idx hidx3', hs_ys, getD_map_lt _ h3mlt, ← hq3]
    exact capAt_eq_self hlb_le_q3 hq3_le_ub
  have hlb' : iqrLb (iqrCap xs) = iqrLb xs := by
    unfold iqrLb
    rw [hq1', hq3']
  have hub' : iqrUb (iqrCap xs) = iqrUb xs := by
    unfold iqrUb
    rw [hq1', hq3']
  rw [iqrCap_eq_map (iqrCap xs), hlb', hub', iqrCap_eq_map xs, List.map_map]
  exact List.map_congr_left fun a _ => capAt_idem hlu a

/-- C5 counterexample: on the four-value column `[-1, 0, 0, 0]` the first
pass caps to `[-5/8, 0, 0, 0]` but the second pass recomputes narrower
fences and caps again to `[-25/64, 0, 0, 0]` — iqr-cap is not idempotent
as claimed. -/
theorem c5_iqr_cap_idempotent_counterexample :
    iqrCap (iqrCap [-1, 0, 0, 0]) ≠ iqrCap [-1, 0, 0, 0] := by
  have hs1 : sortedOf [-1, 0, 0, 0] = [-1, 0, 0, 0] := by
    norm_num [sortedOf, List.insertionSort, List.orderedInsert]
  have hi1 : quantileIdx [-1, 0, 0, 0] (1/4) = 3/4 := by
    norm_num [quantileIdx]
  have hi3 : quantileIdx [-1, 0, 0, 0] (3/4) = 9/4 := by
    norm_num [quantileIdx]
  have hf1 : (⌊(3/4 : Rat)⌋ : Int) = 0 := by
    rw [Int.floor_eq_iff]
    norm_num
  have hf3 : (⌊(9/4 : Rat)⌋ : Int) = 2 := by
    rw [Int.floor_eq_iff]
    norm_num
  have hq1 : pandasQuantile [-1, 0, 0, 0] (1/4) = -(1/4) := by
    unfold pandasQuantile
    rw [hi1, hf1, hs1]
    norm_num [List.getD]
  have hq3 : pandasQuantile [-1, 0, 0, 0] (3/4) = 0 := by
    unfold pandasQuantile
    rw [hi3, hf3, hs1]
    norm_num [List.getD, show Int.toNat 2 = 2 from rfl]
  have hcap1 : iqrCap [-1, 0, 0, 0] = [-(5/8), 0, 0, 0] := by
    unfold iqrCap iqrLb iqrUb
    rw [hq1, hq3]
    norm_num
  have hs2 : sortedOf [-(5/8), 0, 0, 0] = [-(5/8), 0, 0, 0] := by
    norm_num [sortedOf, List.insertionSort, List.orderedInsert]
  have hi1' : quantileIdx [-(5/8), 0, 0, 0] (1/4) = 3/4 := by
    norm_num [quantileIdx]
  have hi3' : quantileIdx [-(5/8), 0, 0, 0] (3/4) = 9/4 := by
    norm_num [quantileIdx]
  have hq1' : pandasQuantile [-(5/8), 0, 0, 0] (1/4) = -(5/32) := by
    unfold pandasQuantile
    rw [hi1', hf1, hs2]
    norm_num [List.getD]
  have hq3' : pandasQuantile [-(5/8), 0, 0, 0] (3/4) = 0 := by
    unfold pandasQuantile
    rw [hi3', hf3, hs2]
    norm_num [List.getD, show Int.toNat 2 = 2 from rfl]
  have hcap2 : iqrCap [-(5/8), 0, 0, 0] = [-(25/64), 0, 0, 0] := by
    unfold iqrCap iqrLb iqrUb
    rw [hq1', hq3']
    norm_num
  rw [hcap1, hcap2]
  intro h
  rw [List.cons.injEq] at h
  exact absurd h.1 (by norm_num)

/-- Witness for C5 on a five-element column (`5 % 4 == 1`). -/
theorem c5_iqr_cap_idempotent_witness :
    iqrCap (iqrCap [1, 2, 3, 4, 5]) = iqrCap [1, 2, 3, 4, 5] :=
  c5_iqr_cap_idempotent [1, 2, 3, 4, 5] (by decide)

end FraudML
